import Mathlib

/-!
# Verification of the Code-Aggregation core (`src/utils.py`, `src/code_aggregator_gui.py`)

Shallow embedding of the repository's core functions:

* `find_files`           — recursive discovery with dual-mode ignore rules
  (`utils.py`, lines 10–62);
* `generate_file_tree`   — nested-dict tree building and rendering
  (`utils.py`, lines 64–104);
* `get_unique_filepath`  — collision-safe output path resolution
  (`utils.py`, lines 107–128);
* `aggregate_code`       — header/tree/per-file streaming aggregation, in the
  `utils.py` variant (lines 130–201, with the output-directory creation
  preamble) and the `code_aggregator_gui.py` variant (lines 134–193, without
  the preamble).

Conventions of the embedding:

* the host OS is POSIX: `os.path.sep` is `'/'`;
* Python strings are Lean `String`s; `str.lower()` is modelled with
  `Char.toLower` (identical on ASCII, and the inputs of interest are ASCII);
* the filesystem visible to `os.walk` is a finite tree (`FSTree`); the
  filesystem state consulted by `aggregate_code` is an abstract record (`FS`)
  of the queries the code makes (`os.path.exists`, `os.makedirs`, `open`,
  reading a file);
* Python stdlib path functions (`os.path.abspath`, `os.path.dirname`,
  `os.path.basename`, `os.path.splitext`, `os.path.relpath`) are modelled for
  already-normalized paths (no `.`/`..` segments, no repeated separators);
  each model carries a doc comment naming the stdlib function;
* the `log_queue` / `progress_queue` side channels of `aggregate_code` are
  modelled as the `logs` / `progress` fields of the returned record; the float
  arithmetic `(i + 1) / total * 100` is modelled exactly over `ℚ` (at the
  concrete instances used below the float computation is exact as well).
-/

namespace CodeAgg

/-! ## String helpers mirroring the Python primitives used by the source -/

/-- Model of Python `str.lower()` (ASCII-faithful, via `Char.toLower`). -/
def lowerStr (s : String) : String := String.mk (s.data.map Char.toLower)

/-- Model of Python `suffix in s` restricted to the single character
`os.path.sep = '/'` (the only separator on POSIX). -/
def hasSep (s : String) : Bool := s.data.contains '/'

/-- Model of Python `str.endswith(suffix)`: raw string-suffix test. -/
def endsWithStr (s suffix : String) : Bool := suffix.data.isSuffixOf s.data

/-- `os.path.join a b` for a relative `b` (the only way the source calls it):
`a ++ "/" ++ b`. -/
def pjoin (a b : String) : String := a ++ "/" ++ b

/-- A POSIX-absolute path: starts with `'/'` (`posixpath.isabs`). -/
def isAbs (p : String) : Bool := p.data.head? = some '/'

/-- Model of `os.path.abspath` for already-normalized inputs: an absolute path
is returned unchanged, a relative one is joined onto the current working
directory (`normpath` is the identity on normalized paths). -/
def abspath (cwd p : String) : String := if isAbs p then p else pjoin cwd p

/-! ## The filesystem tree walked by `find_files` -/

/-- A filesystem entry as enumerated by `os.walk`: a plain file or a directory
with its children in native enumeration order. -/
inductive FSTree where
  | file (name : String)
  | dir (name : String) (children : List FSTree)

/-- The configuration `find_files` computes before walking: lower-cased
extensions, the basename ignore set, the lower-cased absolute full-path ignore
set, and the current working directory used by `os.path.abspath`. -/
structure FindCfg where
  extsL : List String
  ignB : List String
  ignF : List String
  cwd : String

/-- One iteration of the per-directory file loop of `find_files`
(`utils.py` lines 44–59): skip a file whose lower-cased basename is ignored,
then skip it if its lower-cased absolute path is ignored, then accept it when
some lower-cased extension is a suffix of its lower-cased name, yielding the
absolute path. -/
def fileEntryAccept (cfg : FindCfg) (rootPath : String) : FSTree → Option String
  | FSTree.dir _ _ => none
  | FSTree.file f =>
    if lowerStr f ∈ cfg.ignB then none
    else
      let ap := abspath cfg.cwd (pjoin rootPath f)
      if lowerStr ap ∈ cfg.ignF then none
      else if cfg.extsL.any (fun e => endsWithStr (lowerStr f) e) then some ap
      else none

/-- The whole file loop of one `os.walk` step. -/
def acceptFiles (cfg : FindCfg) (rootPath : String) (children : List FSTree) :
    List String :=
  children.filterMap (fileEntryAccept cfg rootPath)

/-- The recursive descent of `os.walk(directory, topdown=True)` as pruned by
`find_files` (`utils.py` lines 32–41): a subdirectory is dropped when its
lower-cased basename is in the basename set or its lower-cased absolute path is
in the full-path set; otherwise its files are emitted and it is walked in
turn. -/
def walkSubdirs (cfg : FindCfg) : String → List FSTree → List String
  | _, [] => []
  | rootPath, FSTree.file _ :: rest => walkSubdirs cfg rootPath rest
  | rootPath, FSTree.dir d sub :: rest =>
    (if lowerStr d ∈ cfg.ignB then []
     else if lowerStr (abspath cfg.cwd (pjoin rootPath d)) ∈ cfg.ignF then []
     else
       acceptFiles cfg (pjoin rootPath d) sub ++
         walkSubdirs cfg (pjoin rootPath d) sub) ++
      walkSubdirs cfg rootPath rest

/-- Files found from one walk root: the accepted files of the root directory
followed by the recursively found files of its surviving subdirectories
(`os.walk` is top-down, so a directory's files precede its subtrees). -/
def walkDir (cfg : FindCfg) (rootPath : String) (children : List FSTree) :
    List String :=
  acceptFiles cfg rootPath children ++ walkSubdirs cfg rootPath children

/-- The basename-rule set `ignore_basenames` of `find_files`
(`utils.py` lines 25–27): lower-cased ignore items with no separator. -/
def ignoreBasenames (ignore_items : List String) : List String :=
  (ignore_items.filter (fun i => ¬ hasSep i)).map lowerStr

/-- The full-path-rule set `ignore_full_paths` of `find_files`
(`utils.py` lines 28–30): separator-containing ignore items, made absolute and
lower-cased. -/
def ignoreFullPaths (cwd : String) (ignore_items : List String) : List String :=
  (ignore_items.filter (fun i => hasSep i)).map (fun i => lowerStr (abspath cwd i))

/-- `find_files(directory, extensions, ignore_items, log_queue)`
(`utils.py` lines 10–62).  `root` is the content of `directory` on disk, and
`cwd` the process working directory consulted by `os.path.abspath`.  The
ignore set is modelled as a list (membership is all the source uses).  The
`log_queue` side channel of this function is not modelled; the returned list
is. -/
def find_files (cwd directory : String) (root : List FSTree)
    (extensions ignore_items : List String) : List String :=
  walkDir
    ⟨extensions.map lowerStr, ignoreBasenames ignore_items,
      ignoreFullPaths cwd ignore_items, cwd⟩
    directory root

/-! ## Characterizing membership in `find_files`

`accepts cfg rootPath children segs f` says that following the directory
segments `segs` from the walk root leads to a file named `f`, that every
directory on the way survives both pruning filters, and that the file itself
passes the basename filter, the full-path filter and the extension test —
exactly the condition under which the walk emits its absolute path. -/

/-- `os.path.join` of a root with a chain of relative segments. -/
def joinSegs (rootPath : String) (segs : List String) : String :=
  segs.foldl pjoin rootPath

/-- The three per-file checks of the file loop, as one test. -/
def fileOk (cfg : FindCfg) (rootPath f : String) : Bool :=
  decide (lowerStr f ∉ cfg.ignB) &&
    decide (lowerStr (abspath cfg.cwd (pjoin rootPath f)) ∉ cfg.ignF) &&
    cfg.extsL.any (fun e => endsWithStr (lowerStr f) e)

/-- The two pruning checks applied to a subdirectory before descending. -/
def dirOk (cfg : FindCfg) (rootPath d : String) : Bool :=
  decide (lowerStr d ∉ cfg.ignB) &&
    decide (lowerStr (abspath cfg.cwd (pjoin rootPath d)) ∉ cfg.ignF)

/-- There is a surviving walk from `rootPath` through the directory chain
`segs` of `children` ending at an accepted file `f`. -/
def accepts (cfg : FindCfg) : String → List FSTree → List String → String → Bool
  | rootPath, children, [], f =>
    children.any fun c =>
      match c with
      | FSTree.file n => n = f && fileOk cfg rootPath f
      | _ => false
  | rootPath, children, d :: rest, f =>
    children.any fun c =>
      match c with
      | FSTree.dir n sub =>
        n = d && dirOk cfg rootPath d && accepts cfg (pjoin rootPath d) sub rest f
      | _ => false

theorem fileEntryAccept_eq_some (cfg : FindCfg) (rootPath : String) (c : FSTree)
    (p : String) :
    fileEntryAccept cfg rootPath c = some p ↔
      ∃ f, c = FSTree.file f ∧ fileOk cfg rootPath f = true ∧
        p = abspath cfg.cwd (pjoin rootPath f) := by
  cases c with
  | dir n sub => simp [fileEntryAccept]
  | file f =>
    constructor
    · intro h
      unfold fileEntryAccept at h
      dsimp only at h
      split_ifs at h with h1 h2 h3
      refine ⟨f, rfl, ?_, ?_⟩
      · simp [fileOk, h1, h2, h3]
      · simpa using h.symm
    · rintro ⟨g, hg, hok, rfl⟩
      injection hg with hg
      subst hg
      simp only [fileOk, Bool.and_eq_true, decide_eq_true_eq] at hok
      unfold fileEntryAccept
      dsimp only
      rw [if_neg hok.1.1, if_neg hok.1.2, if_pos hok.2]

theorem accepts_nil_iff (cfg : FindCfg) (rootPath : String)
    (children : List FSTree) (f : String) :
    accepts cfg rootPath children [] f = true ↔
      FSTree.file f ∈ children ∧ fileOk cfg rootPath f = true := by
  simp only [accepts, List.any_eq_true]
  constructor
  · rintro ⟨c, hc, hpred⟩
    match c with
    | FSTree.file n =>
      dsimp only at hpred
      simp only [Bool.and_eq_true, decide_eq_true_eq] at hpred
      obtain ⟨hn, hok⟩ := hpred
      subst hn
      exact ⟨hc, hok⟩
    | FSTree.dir _ _ => simp at hpred
  · rintro ⟨hc, hok⟩
    exact ⟨FSTree.file f, hc, by simp [hok]⟩

theorem accepts_cons_iff (cfg : FindCfg) (rootPath : String)
    (children : List FSTree) (d : String) (rest : List String) (f : String) :
    accepts cfg rootPath children (d :: rest) f = true ↔
      ∃ sub, FSTree.dir d sub ∈ children ∧ dirOk cfg rootPath d = true ∧
        accepts cfg (pjoin rootPath d) sub rest f = true := by
  simp only [accepts, List.any_eq_true]
  constructor
  · rintro ⟨c, hc, hpred⟩
    match c with
    | FSTree.dir n sub =>
      dsimp only at hpred
      simp only [Bool.and_eq_true, decide_eq_true_eq] at hpred
      obtain ⟨⟨hn, hok⟩, hacc⟩ := hpred
      subst hn
      exact ⟨sub, hc, hok, hacc⟩
    | FSTree.file _ => simp at hpred
  · rintro ⟨sub, hc, hok, hacc⟩
    exact ⟨FSTree.dir d sub, hc, by simp [hok, hacc]⟩

theorem mem_acceptFiles_iff (cfg : FindCfg) (rootPath : String)
    (children : List FSTree) (p : String) :
    p ∈ acceptFiles cfg rootPath children ↔
      ∃ f, accepts cfg rootPath children [] f = true ∧
        p = abspath cfg.cwd (pjoin rootPath f) := by
  simp only [acceptFiles, List.mem_filterMap, fileEntryAccept_eq_some,
    accepts_nil_iff]
  constructor
  · rintro ⟨c, hc, f, rfl, hok, rfl⟩
    exact ⟨f, ⟨hc, hok⟩, rfl⟩
  · rintro ⟨f, ⟨hc, hok⟩, rfl⟩
    exact ⟨FSTree.file f, hc, f, rfl, hok, rfl⟩

theorem joinSegs_append_singleton (rp : String) (segs : List String) (f : String) :
    joinSegs rp (segs ++ [f]) = pjoin (joinSegs rp segs) f := by
  simp [joinSegs, List.foldl_append]

theorem mem_walkSubdirs_iff (cfg : FindCfg) (rootPath : String)
    (children : List FSTree) (p : String) :
    p ∈ walkSubdirs cfg rootPath children ↔
      ∃ d segs f, accepts cfg rootPath children (d :: segs) f = true ∧
        p = abspath cfg.cwd (joinSegs (pjoin rootPath d) (segs ++ [f])) := by
  induction rootPath, children using walkSubdirs.induct cfg with
  | case1 rootPath =>
    simp [walkSubdirs, accepts]
  | case2 rootPath n rest ih =>
    rw [walkSubdirs, ih]
    constructor
    · rintro ⟨d, segs, f, hacc, hp⟩
      refine ⟨d, segs, f, ?_, hp⟩
      rw [accepts_cons_iff] at hacc ⊢
      obtain ⟨sub, hsub, h⟩ := hacc
      exact ⟨sub, List.mem_cons_of_mem _ hsub, h⟩
    · rintro ⟨d, segs, f, hacc, hp⟩
      refine ⟨d, segs, f, ?_, hp⟩
      rw [accepts_cons_iff] at hacc ⊢
      obtain ⟨sub, hsub, h⟩ := hacc
      rcases List.mem_cons.mp hsub with heq | hmem
      · exact absurd heq (by simp)
      · exact ⟨sub, hmem, h⟩
  | case3 rootPath d0 sub rest ih1 ih2 =>
    rw [walkSubdirs]
    simp only [List.mem_append]
    constructor
    · rintro (hin | hrest)
      · -- p in the (possibly pruned) subtree part
        split_ifs at hin with hB hF
        · simp at hin
        · simp at hin
        · rcases List.mem_append.mp hin with hfiles | hdeep
          · rcases (mem_acceptFiles_iff cfg (pjoin rootPath d0) sub p).mp hfiles
              with ⟨f, hacc, hp⟩
            refine ⟨d0, [], f, ?_, by simpa [joinSegs] using hp⟩
            rw [accepts_cons_iff]
            refine ⟨sub, List.mem_cons_self _ _, ?_, hacc⟩
            simp [dirOk, hB, hF]
          · rcases ih1.mp hdeep with ⟨d, segs, f, hacc, hp⟩
            refine ⟨d0, d :: segs, f, ?_, by simpa [joinSegs] using hp⟩
            rw [accepts_cons_iff]
            refine ⟨sub, List.mem_cons_self _ _, ?_, hacc⟩
            simp [dirOk, hB, hF]
      · rcases ih2.mp hrest with ⟨d, segs, f, hacc, hp⟩
        refine ⟨d, segs, f, ?_, hp⟩
        rw [accepts_cons_iff] at hacc ⊢
        obtain ⟨sub', hsub', h⟩ := hacc
        exact ⟨sub', List.mem_cons_of_mem _ hsub', h⟩
    · rintro ⟨d, segs, f, hacc, hp⟩
      rw [accepts_cons_iff] at hacc
      obtain ⟨sub', hsub', hok, hacc'⟩ := hacc
      rcases List.mem_cons.mp hsub' with heq | hmem
      · injection heq with hd hsub
        subst hd
        subst hsub
        simp only [dirOk, Bool.and_eq_true, decide_eq_true_eq] at hok
        left
        rw [if_neg hok.1, if_neg hok.2]
        rcases segs with _ | ⟨d1, segs'⟩
        · refine List.mem_append_left _ ?_
          rw [mem_acceptFiles_iff]
          exact ⟨f, hacc', by simpa [joinSegs] using hp⟩
        · refine List.mem_append_right _ ?_
          rw [ih1]
          exact ⟨d1, segs', f, hacc', by simpa [joinSegs] using hp⟩
      · right
        rw [ih2]
        refine ⟨d, segs, f, ?_, hp⟩
        rw [accepts_cons_iff]
        exact ⟨sub', hmem, hok, hacc'⟩

/-- Membership characterization of one walk step (files of the root itself
together with everything below surviving subdirectories). -/
theorem mem_walkDir_iff (cfg : FindCfg) (rootPath : String)
    (children : List FSTree) (p : String) :
    p ∈ walkDir cfg rootPath children ↔
      ∃ segs f, accepts cfg rootPath children segs f = true ∧
        p = abspath cfg.cwd (joinSegs rootPath (segs ++ [f])) := by
  rw [walkDir]
  simp only [List.mem_append, mem_acceptFiles_iff, mem_walkSubdirs_iff]
  constructor
  · rintro (⟨f, hacc, hp⟩ | ⟨d, segs, f, hacc, hp⟩)
    · exact ⟨[], f, hacc, by simpa [joinSegs] using hp⟩
    · exact ⟨d :: segs, f, hacc, by simpa [joinSegs] using hp⟩
  · rintro ⟨segs, f, hacc, hp⟩
    rcases segs with _ | ⟨d, segs⟩
    · exact Or.inl ⟨f, hacc, by simpa [joinSegs] using hp⟩
    · exact Or.inr ⟨d, segs, f, hacc, by simpa [joinSegs] using hp⟩

/-- The configuration `find_files` builds from its raw arguments. -/
def mkCfg (cwd : String) (extensions ignore_items : List String) : FindCfg :=
  ⟨extensions.map lowerStr, ignoreBasenames ignore_items,
    ignoreFullPaths cwd ignore_items, cwd⟩

/-- A path is returned by `find_files` exactly when some surviving directory
chain of the walk leads to a file passing all filters, and the path is that
file's absolute path. -/
theorem mem_find_files_iff (cwd directory : String) (root : List FSTree)
    (extensions ignore_items : List String) (p : String) :
    p ∈ find_files cwd directory root extensions ignore_items ↔
      ∃ segs f,
        accepts (mkCfg cwd extensions ignore_items) directory root segs f = true ∧
        p = abspath cwd (joinSegs directory (segs ++ [f])) := by
  rw [find_files, mem_walkDir_iff]
  rfl

/-! ## Cleanliness, locations and path injectivity

Real filesystem entry names never contain the separator; `cleanName` /
`cleanTree` capture that, and under it a joined path determines its segment
chain uniquely. -/

def locatesFile : List FSTree → List String → String → Bool
  | children, [], f =>
    children.any fun c =>
      match c with
      | FSTree.file n => n = f
      | _ => false
  | children, d :: rest, f =>
    children.any fun c =>
      match c with
      | FSTree.dir n sub => n = d && locatesFile sub rest f
      | _ => false

def cleanName (s : String) : Bool := !(s.data.contains '/')

def cleanTree : List FSTree → Bool
  | [] => true
  | FSTree.file f :: rest => cleanName f && cleanTree rest
  | FSTree.dir d sub :: rest => cleanName d && cleanTree sub && cleanTree rest

theorem cleanTree_mem_file {l : List FSTree} {f : String}
    (hc : cleanTree l = true) (hm : FSTree.file f ∈ l) : cleanName f = true := by
  induction l with
  | nil => cases hm
  | cons c rest ih =>
    rcases List.mem_cons.mp hm with rfl | hm'
    · simp only [cleanTree, Bool.and_eq_true] at hc
      exact hc.1
    · cases c with
      | file g =>
        simp only [cleanTree, Bool.and_eq_true] at hc
        exact ih hc.2 hm'
      | dir d sub =>
        simp only [cleanTree, Bool.and_eq_true] at hc
        exact ih hc.2 hm'

theorem cleanTree_mem_dir {l : List FSTree} {d : String} {sub : List FSTree}
    (hc : cleanTree l = true) (hm : FSTree.dir d sub ∈ l) :
    cleanName d = true ∧ cleanTree sub = true := by
  induction l with
  | nil => cases hm
  | cons c rest ih =>
    rcases List.mem_cons.mp hm with rfl | hm'
    · simp only [cleanTree, Bool.and_eq_true] at hc
      exact ⟨hc.1.1, hc.1.2⟩
    · cases c with
      | file g =>
        simp only [cleanTree, Bool.and_eq_true] at hc
        exact ih hc.2 hm'
      | dir d' sub' =>
        simp only [cleanTree, Bool.and_eq_true] at hc
        exact ih hc.2 hm'

theorem accepts_clean {cfg : FindCfg} :
    ∀ {rootPath : String} {children : List FSTree} {segs : List String}
      {f : String}, cleanTree children = true →
      accepts cfg rootPath children segs f = true →
      (∀ s ∈ segs, cleanName s = true) ∧ cleanName f = true := by
  intro rootPath children segs
  induction segs generalizing rootPath children with
  | nil =>
    intro f hc hacc
    rw [accepts_nil_iff] at hacc
    exact ⟨by simp, cleanTree_mem_file hc hacc.1⟩
  | cons d rest ih =>
    intro f hc hacc
    rw [accepts_cons_iff] at hacc
    obtain ⟨sub, hmem, _, hacc'⟩ := hacc
    obtain ⟨hd, hsub⟩ := cleanTree_mem_dir hc hmem
    obtain ⟨hrest, hf⟩ := ih hsub hacc'
    refine ⟨?_, hf⟩
    intro s hs
    rcases List.mem_cons.mp hs with rfl | hs'
    · exact hd
    · exact hrest s hs'

theorem locatesFile_clean {children : List FSTree} {segs : List String}
    {f : String} (hc : cleanTree children = true)
    (hl : locatesFile children segs f = true) :
    (∀ s ∈ segs, cleanName s = true) ∧ cleanName f = true := by
  induction segs generalizing children with
  | nil =>
    simp only [locatesFile, List.any_eq_true] at hl
    obtain ⟨c, hm, hpred⟩ := hl
    match c with
    | FSTree.file n =>
      simp only [decide_eq_true_eq] at hpred
      subst hpred
      exact ⟨by simp, cleanTree_mem_file hc hm⟩
    | FSTree.dir _ _ => simp at hpred
  | cons d rest ih =>
    simp only [locatesFile, List.any_eq_true] at hl
    obtain ⟨c, hm, hpred⟩ := hl
    match c with
    | FSTree.dir n sub =>
      simp only [Bool.and_eq_true, decide_eq_true_eq] at hpred
      obtain ⟨rfl, hl'⟩ := hpred
      obtain ⟨hd, hsub⟩ := cleanTree_mem_dir hc hm
      obtain ⟨hrest, hf⟩ := ih hsub hl'
      refine ⟨?_, hf⟩
      intro s hs
      rcases List.mem_cons.mp hs with rfl | hs'
      · exact hd
      · exact hrest s hs'
    | FSTree.file _ => simp at hpred

theorem accepts_not_ignB {cfg : FindCfg} :
    ∀ {rootPath : String} {children : List FSTree} {segs : List String}
      {f : String}, accepts cfg rootPath children segs f = true →
      (∀ s ∈ segs, lowerStr s ∉ cfg.ignB) ∧ lowerStr f ∉ cfg.ignB := by
  intro rootPath children segs
  induction segs generalizing rootPath children with
  | nil =>
    intro f hacc
    rw [accepts_nil_iff] at hacc
    have := hacc.2
    simp only [fileOk, Bool.and_eq_true, decide_eq_true_eq] at this
    exact ⟨by simp, this.1.1⟩
  | cons d rest ih =>
    intro f hacc
    rw [accepts_cons_iff] at hacc
    obtain ⟨sub, _, hok, hacc'⟩ := hacc
    simp only [dirOk, Bool.and_eq_true, decide_eq_true_eq] at hok
    obtain ⟨hrest, hf⟩ := ih hacc'
    refine ⟨?_, hf⟩
    intro s hs
    rcases List.mem_cons.mp hs with rfl | hs'
    · exact hok.1
    · exact hrest s hs'

def flatSegs (segs : List (List Char)) : List Char :=
  (segs.map (fun s => '/' :: s)).flatten

theorem joinSegs_data (rp : String) (segs : List String) :
    (joinSegs rp segs).data = rp.data ++ flatSegs (segs.map String.data) := by
  induction segs generalizing rp with
  | nil => simp [joinSegs, flatSegs]
  | cons a rest ih =>
    have h1 : joinSegs rp (a :: rest) = joinSegs (pjoin rp a) rest := rfl
    rw [h1, ih]
    simp [pjoin, flatSegs, String.data_append]

theorem takeWhile_append_of_all {p : Char → Bool} {a x : List Char}
    (ha : ∀ c ∈ a, p c = true) : (a ++ x).takeWhile p = a ++ x.takeWhile p := by
  induction a with
  | nil => simp
  | cons c t ih =>
    have hc := ha c (by simp)
    simp only [List.cons_append, List.takeWhile_cons, hc, ite_true]
    rw [ih (fun d hd => ha d (by simp [hd]))]

theorem dropWhile_append_of_all {p : Char → Bool} {a x : List Char}
    (ha : ∀ c ∈ a, p c = true) : (a ++ x).dropWhile p = x.dropWhile p := by
  induction a with
  | nil => simp
  | cons c t ih =>
    have hc := ha c (by simp)
    simp only [List.cons_append, List.dropWhile_cons, hc, ite_true]
    exact ih (fun d hd => ha d (by simp [hd]))

theorem length_dropWhile_le' (p : Char → Bool) (l : List Char) :
    (l.dropWhile p).length ≤ l.length := by
  induction l with
  | nil => simp
  | cons a t ih =>
    by_cases h : p a
    · simp only [List.dropWhile_cons, h, ite_true]
      exact le_trans ih (by simp)
    · simp [List.dropWhile_cons, h]

def splitSlash : List Char → List (List Char)
  | [] => []
  | _ :: t =>
    t.takeWhile (fun c => c != '/') :: splitSlash (t.dropWhile (fun c => c != '/'))
  termination_by l => l.length
  decreasing_by
    simp only [List.length_cons]
    have := length_dropWhile_le' (fun c => c != '/') t
    omega

theorem flatSegs_head (segs : List (List Char)) :
    flatSegs segs = [] ∨ ∃ t, flatSegs segs = '/' :: t := by
  cases segs with
  | nil => exact Or.inl rfl
  | cons a rest => exact Or.inr ⟨a ++ flatSegs rest, by simp [flatSegs]⟩

theorem splitSlash_flatSegs (segs : List (List Char))
    (h : ∀ s ∈ segs, '/' ∉ s) : splitSlash (flatSegs segs) = segs := by
  induction segs with
  | nil => simp [flatSegs, splitSlash]
  | cons a rest ih =>
    have hflat : flatSegs (a :: rest) = '/' :: (a ++ flatSegs rest) := by
      simp [flatSegs]
    rw [hflat, splitSlash]
    have ha : ∀ c ∈ a, (fun c => c != '/') c = true := by
      intro c hc
      simp only [bne_iff_ne, ne_eq]
      rintro rfl
      exact h a (by simp) hc
    have htail : (flatSegs rest).takeWhile (fun c => c != '/') = [] ∧
        (flatSegs rest).dropWhile (fun c => c != '/') = flatSegs rest := by
      rcases flatSegs_head rest with he | ⟨t, ht⟩
      · simp [he]
      · rw [ht]
        constructor
        · simp [List.takeWhile_cons]
        · simp [List.dropWhile_cons]
    rw [takeWhile_append_of_all ha, dropWhile_append_of_all ha, htail.1,
      htail.2, List.append_nil, ih (fun s hs => h s (by simp [hs]))]

theorem joinSegs_inj {rp : String} {l1 l2 : List String}
    (h1 : ∀ s ∈ l1, cleanName s = true) (h2 : ∀ s ∈ l2, cleanName s = true)
    (heq : joinSegs rp l1 = joinSegs rp l2) : l1 = l2 := by
  have hd : (joinSegs rp l1).data = (joinSegs rp l2).data := congrArg _ heq
  rw [joinSegs_data, joinSegs_data] at hd
  have hflat : flatSegs (l1.map String.data) = flatSegs (l2.map String.data) :=
    List.append_cancel_left hd
  have hcl : ∀ (l : List String), (∀ s ∈ l, cleanName s = true) →
      ∀ s ∈ l.map String.data, '/' ∉ s := by
    intro l hl s hs
    obtain ⟨t, ht, rfl⟩ := List.mem_map.mp hs
    have hcn := hl t ht
    simp only [cleanName, Bool.not_eq_true'] at hcn
    intro hmem
    have : t.data.contains '/' = true := List.elem_iff.mpr hmem
    simp_all
  have := splitSlash_flatSegs (l1.map String.data) (hcl l1 h1)
  rw [hflat, splitSlash_flatSegs (l2.map String.data) (hcl l2 h2)] at this
  have hinj : Function.Injective String.data := by
    intro a b hab
    cases a
    cases b
    exact congrArg String.mk hab
  exact List.map_injective_iff.mpr hinj this.symm

theorem isAbs_pjoin {a : String} (b : String) (h : isAbs a = true) :
    isAbs (pjoin a b) = true := by
  simp only [isAbs] at h ⊢
  rcases a with ⟨⟨⟩ | ⟨c, t⟩⟩
  · simp at h
  · simp only [List.head?] at h
    simp [pjoin, String.data_append, List.cons_append]
    simpa using h

theorem isAbs_joinSegs {rp : String} (segs : List String)
    (h : isAbs rp = true) : isAbs (joinSegs rp segs) = true := by
  induction segs generalizing rp with
  | nil => exact h
  | cons a rest ih => exact ih (isAbs_pjoin a h)

theorem abspath_of_isAbs {cwd p : String} (h : isAbs p = true) :
    abspath cwd p = p := by
  simp [abspath, h]

/-! ## Claims C1, C2, C3 -/

theorem append_singleton_inj {l1 l2 : List String} {f1 f2 : String}
    (h : l1 ++ [f1] = l2 ++ [f2]) : l1 = l2 ∧ f1 = f2 := by
  have hrev := congrArg List.reverse h
  simp only [List.reverse_append, List.reverse_cons, List.reverse_nil,
    List.nil_append, List.singleton_append, List.cons.injEq] at hrev
  obtain ⟨hf, hl⟩ := hrev
  refine ⟨?_, hf⟩
  have := congrArg List.reverse hl
  simpa using this

/-- C1 (proved over the embedding): a file located anywhere in the tree is
absent from the result as soon as one of the directory names on the way to it,
or its own name, is in the basename-rule set. -/
theorem find_files_basename_ignored_absent
    (cwd directory : String) (root : List FSTree)
    (extensions ignore_items : List String) (segs : List String) (f : String)
    (hclean : cleanTree root = true) (habs : isAbs directory = true)
    (hloc : locatesFile root segs f = true)
    (hign : (∃ s ∈ segs, lowerStr s ∈ ignoreBasenames ignore_items) ∨
      lowerStr f ∈ ignoreBasenames ignore_items) :
    joinSegs directory (segs ++ [f]) ∉
      find_files cwd directory root extensions ignore_items := by
  intro hmem
  rw [mem_find_files_iff] at hmem
  obtain ⟨segs', f', hacc, hp⟩ := hmem
  rw [abspath_of_isAbs (isAbs_joinSegs _ habs)] at hp
  have hc1 := locatesFile_clean hclean hloc
  have hc2 := accepts_clean hclean hacc
  have hall1 : ∀ s ∈ segs ++ [f], cleanName s = true := by
    intro s hs
    rcases List.mem_append.mp hs with h | h
    · exact hc1.1 s h
    · simp only [List.mem_singleton] at h
      subst h
      exact hc1.2
  have hall2 : ∀ s ∈ segs' ++ [f'], cleanName s = true := by
    intro s hs
    rcases List.mem_append.mp hs with h | h
    · exact hc2.1 s h
    · simp only [List.mem_singleton] at h
      subst h
      exact hc2.2
  obtain ⟨rfl, rfl⟩ := append_singleton_inj (joinSegs_inj hall1 hall2 hp)
  have hnot := accepts_not_ignB hacc
  rcases hign with ⟨s, hs, hsin⟩ | hfin
  · exact hnot.1 s hs hsin
  · exact hnot.2 hfin

theorem find_files_basename_ignored_absent_witness :
    cleanTree [FSTree.dir "venv" [FSTree.file "secret.py"],
        FSTree.file "main.py"] = true ∧
    isAbs "/r" = true ∧
    locatesFile [FSTree.dir "venv" [FSTree.file "secret.py"],
        FSTree.file "main.py"] ["venv"] "secret.py" = true ∧
    lowerStr "venv" ∈ ignoreBasenames ["VENV"] ∧
    joinSegs "/r" (["venv"] ++ ["secret.py"]) ∉
      find_files "/c" "/r"
        [FSTree.dir "venv" [FSTree.file "secret.py"], FSTree.file "main.py"]
        [".py"] ["VENV"] :=
  ⟨by simp [cleanTree, cleanName, hasSep], by decide,
    by simp [locatesFile], by decide,
    find_files_basename_ignored_absent "/c" "/r" _ [".py"] ["VENV"]
      ["venv"] "secret.py" (by simp [cleanTree, cleanName, hasSep]) (by decide)
      (by simp [locatesFile])
      (Or.inl ⟨"venv", by decide, by decide⟩)⟩

theorem joinSegs_cons (rp d : String) (segs : List String) :
    joinSegs rp (d :: segs) = joinSegs (pjoin rp d) segs := rfl

theorem accepts_abs_not_ignF {cfg : FindCfg} :
    ∀ {rootPath : String} {children : List FSTree} {segs : List String}
      {f : String}, accepts cfg rootPath children segs f = true →
      lowerStr (abspath cfg.cwd (joinSegs rootPath (segs ++ [f]))) ∉ cfg.ignF := by
  intro rootPath children segs
  induction segs generalizing rootPath children with
  | nil =>
    intro f hacc
    rw [accepts_nil_iff] at hacc
    have := hacc.2
    simp only [fileOk, Bool.and_eq_true, decide_eq_true_eq] at this
    simpa [joinSegs] using this.1.2
  | cons d rest ih =>
    intro f hacc
    rw [accepts_cons_iff] at hacc
    obtain ⟨sub, _, _, hacc'⟩ := hacc
    simpa [joinSegs_cons] using ih hacc'

theorem accepts_prefix_not_ignF {cfg : FindCfg} :
    ∀ {rootPath : String} {children : List FSTree} {segs : List String}
      {f : String}, accepts cfg rootPath children segs f = true →
      ∀ pre d suf, segs = pre ++ d :: suf →
      lowerStr (abspath cfg.cwd (joinSegs rootPath (pre ++ [d]))) ∉ cfg.ignF := by
  intro rootPath children segs
  induction segs generalizing rootPath children with
  | nil =>
    intro f _ pre d suf heq
    exact absurd heq (by simp)
  | cons d0 rest ih =>
    intro f hacc pre d suf heq
    rw [accepts_cons_iff] at hacc
    obtain ⟨sub, _, hok, hacc'⟩ := hacc
    rcases pre with _ | ⟨p0, pre'⟩
    · simp only [List.nil_append, List.cons.injEq] at heq
      obtain ⟨rfl, rfl⟩ := heq
      simp only [dirOk, Bool.and_eq_true, decide_eq_true_eq] at hok
      simpa [joinSegs] using hok.2
    · simp only [List.cons_append, List.cons.injEq] at heq
      obtain ⟨rfl, heq'⟩ := heq
      simpa [joinSegs_cons] using ih hacc' pre' d suf heq'

/-- C2: full-path ignore rules are exact.  Conjunct one: a path whose
lower-cased form is a full-path rule never appears in the result (in
particular the entry at exactly that path is excluded).  Conjunct two: every
location the walk accepts — every chain of directories none of which is
ignored by either rule kind, ending in a file passing all filters — *is*
returned, so a sibling (same basename, different path) of a full-path rule is
still discovered.  Conjunct three: a file located below a directory whose
joined path is a full-path rule is never returned (the traversal does not
descend into it). -/
theorem find_files_full_path_exact
    (cwd directory : String) (root : List FSTree)
    (extensions ignore_items : List String)
    (hclean : cleanTree root = true) (habs : isAbs directory = true) :
    (∀ p, lowerStr p ∈ ignoreFullPaths cwd ignore_items →
      p ∉ find_files cwd directory root extensions ignore_items) ∧
    (∀ segs f,
      accepts (mkCfg cwd extensions ignore_items) directory root segs f = true →
      joinSegs directory (segs ++ [f]) ∈
        find_files cwd directory root extensions ignore_items) ∧
    (∀ segs f pre d suf, locatesFile root segs f = true →
      segs = pre ++ d :: suf →
      lowerStr (joinSegs directory (pre ++ [d])) ∈
        ignoreFullPaths cwd ignore_items →
      joinSegs directory (segs ++ [f]) ∉
        find_files cwd directory root extensions ignore_items) := by
  refine ⟨?_, ?_, ?_⟩
  · intro p hp hmem
    rw [mem_find_files_iff] at hmem
    obtain ⟨segs, f, hacc, rfl⟩ := hmem
    exact accepts_abs_not_ignF hacc hp
  · intro segs f hacc
    have := (mem_find_files_iff cwd directory root extensions ignore_items
      (abspath cwd (joinSegs directory (segs ++ [f])))).mpr ⟨segs, f, hacc, rfl⟩
    rwa [abspath_of_isAbs (isAbs_joinSegs _ habs)] at this
  · intro segs f pre d suf hloc hpre hignf hmem
    rw [mem_find_files_iff] at hmem
    obtain ⟨segs', f', hacc, hp⟩ := hmem
    rw [abspath_of_isAbs (isAbs_joinSegs _ habs)] at hp
    have hc1 := locatesFile_clean hclean hloc
    have hc2 := accepts_clean hclean hacc
    have hall1 : ∀ s ∈ segs ++ [f], cleanName s = true := by
      intro s hs
      rcases List.mem_append.mp hs with h | h
      · exact hc1.1 s h
      · simp only [List.mem_singleton] at h
        subst h
        exact hc1.2
    have hall2 : ∀ s ∈ segs' ++ [f'], cleanName s = true := by
      intro s hs
      rcases List.mem_append.mp hs with h | h
      · exact hc2.1 s h
      · simp only [List.mem_singleton] at h
        subst h
        exact hc2.2
    obtain ⟨rfl, rfl⟩ := append_singleton_inj (joinSegs_inj hall1 hall2 hp)
    have := accepts_prefix_not_ignF hacc pre d suf hpre
    rw [abspath_of_isAbs (isAbs_joinSegs _ habs)] at this
    exact this hignf

theorem find_files_full_path_exact_witness :
    lowerStr "/r/data/a.py" ∈ ignoreFullPaths "/c" ["/r/data/a.py"] ∧
    accepts (mkCfg "/c" [".py"] ["/r/data/a.py"]) "/r"
      [FSTree.dir "data" [FSTree.file "a.py"],
        FSTree.dir "other" [FSTree.file "a.py"]] ["other"] "a.py" = true ∧
    joinSegs "/r" (["other"] ++ ["a.py"]) ∈
      find_files "/c" "/r"
        [FSTree.dir "data" [FSTree.file "a.py"],
          FSTree.dir "other" [FSTree.file "a.py"]] [".py"] ["/r/data/a.py"] ∧
    "/r/data/a.py" ∉
      find_files "/c" "/r"
        [FSTree.dir "data" [FSTree.file "a.py"],
          FSTree.dir "other" [FSTree.file "a.py"]] [".py"] ["/r/data/a.py"] := by
  have h := find_files_full_path_exact "/c" "/r"
    [FSTree.dir "data" [FSTree.file "a.py"],
      FSTree.dir "other" [FSTree.file "a.py"]] [".py"] ["/r/data/a.py"]
    (by simp [cleanTree, cleanName, hasSep]) (by decide)
  have hacc : accepts (mkCfg "/c" [".py"] ["/r/data/a.py"]) "/r"
      [FSTree.dir "data" [FSTree.file "a.py"],
        FSTree.dir "other" [FSTree.file "a.py"]] ["other"] "a.py" = true := by
    simp [accepts, mkCfg, dirOk, fileOk, ignoreBasenames, ignoreFullPaths]
    decide
  exact ⟨by decide, hacc, h.2.1 ["other"] "a.py" hacc,
    h.1 "/r/data/a.py" (by decide)⟩

def reachable (cfg : FindCfg) : String → List FSTree → List String → String → Bool
  | rootPath, children, [], f =>
    children.any fun c =>
      match c with
      | FSTree.file n =>
        n = f && decide (lowerStr f ∉ cfg.ignB) &&
          decide (lowerStr (abspath cfg.cwd (pjoin rootPath f)) ∉ cfg.ignF)
      | _ => false
  | rootPath, children, d :: rest, f =>
    children.any fun c =>
      match c with
      | FSTree.dir n sub =>
        n = d && dirOk cfg rootPath d && reachable cfg (pjoin rootPath d) sub rest f
      | _ => false

theorem reachable_nil_iff (cfg : FindCfg) (rootPath : String)
    (children : List FSTree) (f : String) :
    reachable cfg rootPath children [] f = true ↔
      FSTree.file f ∈ children ∧ lowerStr f ∉ cfg.ignB ∧
        lowerStr (abspath cfg.cwd (pjoin rootPath f)) ∉ cfg.ignF := by
  simp only [reachable, List.any_eq_true]
  constructor
  · rintro ⟨c, hc, hpred⟩
    match c with
    | FSTree.file n =>
      dsimp only at hpred
      simp only [Bool.and_eq_true, decide_eq_true_eq] at hpred
      obtain ⟨⟨hn, h1⟩, h2⟩ := hpred
      subst hn
      exact ⟨hc, h1, h2⟩
    | FSTree.dir _ _ => simp at hpred
  · rintro ⟨hc, h1, h2⟩
    exact ⟨FSTree.file f, hc, by simp [h1, h2]⟩

theorem reachable_cons_iff (cfg : FindCfg) (rootPath : String)
    (children : List FSTree) (d : String) (rest : List String) (f : String) :
    reachable cfg rootPath children (d :: rest) f = true ↔
      ∃ sub, FSTree.dir d sub ∈ children ∧ dirOk cfg rootPath d = true ∧
        reachable cfg (pjoin rootPath d) sub rest f = true := by
  simp only [reachable, List.any_eq_true]
  constructor
  · rintro ⟨c, hc, hpred⟩
    match c with
    | FSTree.dir n sub =>
      dsimp only at hpred
      simp only [Bool.and_eq_true, decide_eq_true_eq] at hpred
      obtain ⟨⟨hn, hok⟩, hr⟩ := hpred
      subst hn
      exact ⟨sub, hc, hok, hr⟩
    | FSTree.file _ => simp at hpred
  · rintro ⟨sub, hc, hok, hr⟩
    exact ⟨FSTree.dir d sub, hc, by simp [hok, hr]⟩

theorem accepts_iff_reachable {cfg : FindCfg} :
    ∀ {rootPath : String} {children : List FSTree} {segs : List String}
      {f : String},
      accepts cfg rootPath children segs f = true ↔
        (reachable cfg rootPath children segs f = true ∧
          cfg.extsL.any (fun e => endsWithStr (lowerStr f) e) = true) := by
  intro rootPath children segs
  induction segs generalizing rootPath children with
  | nil =>
    intro f
    rw [accepts_nil_iff, reachable_nil_iff]
    simp only [fileOk, Bool.and_eq_true, decide_eq_true_eq]
    tauto
  | cons d rest ih =>
    intro f
    rw [accepts_cons_iff, reachable_cons_iff]
    constructor
    · rintro ⟨sub, hc, hok, hacc⟩
      rw [ih] at hacc
      exact ⟨⟨sub, hc, hok, hacc.1⟩, hacc.2⟩
    · rintro ⟨⟨sub, hc, hok, hr⟩, hext⟩
      exact ⟨sub, hc, hok, ih.mpr ⟨hr, hext⟩⟩

theorem reachable_locates {cfg : FindCfg} :
    ∀ {rootPath : String} {children : List FSTree} {segs : List String}
      {f : String}, reachable cfg rootPath children segs f = true →
      locatesFile children segs f = true := by
  intro rootPath children segs
  induction segs generalizing rootPath children with
  | nil =>
    intro f hr
    rw [reachable_nil_iff] at hr
    simp only [locatesFile, List.any_eq_true]
    exact ⟨FSTree.file f, hr.1, by simp⟩
  | cons d rest ih =>
    intro f hr
    rw [reachable_cons_iff] at hr
    obtain ⟨sub, hc, _, hr'⟩ := hr
    simp only [locatesFile, List.any_eq_true]
    exact ⟨FSTree.dir d sub, hc, by simp [ih hr']⟩

/-- C3: for a file the walk can reach without tripping any ignore rule, the
path is returned iff some configured extension, lower-cased, is a raw suffix
of the lower-cased filename. -/
theorem find_files_ext_suffix_iff
    (cwd directory : String) (root : List FSTree)
    (extensions ignore_items : List String) (segs : List String) (f : String)
    (hclean : cleanTree root = true) (habs : isAbs directory = true)
    (hreach : reachable (mkCfg cwd extensions ignore_items) directory root
      segs f = true) :
    joinSegs directory (segs ++ [f]) ∈
        find_files cwd directory root extensions ignore_items ↔
      (extensions.map lowerStr).any (fun e => endsWithStr (lowerStr f) e) = true := by
  constructor
  · intro hmem
    rw [mem_find_files_iff] at hmem
    obtain ⟨segs', f', hacc, hp⟩ := hmem
    rw [abspath_of_isAbs (isAbs_joinSegs _ habs)] at hp
    have hc1 := locatesFile_clean hclean (reachable_locates hreach)
    have hc2 := accepts_clean hclean hacc
    have hall1 : ∀ s ∈ segs ++ [f], cleanName s = true := by
      intro s hs
      rcases List.mem_append.mp hs with h | h
      · exact hc1.1 s h
      · simp only [List.mem_singleton] at h
        subst h
        exact hc1.2
    have hall2 : ∀ s ∈ segs' ++ [f'], cleanName s = true := by
      intro s hs
      rcases List.mem_append.mp hs with h | h
      · exact hc2.1 s h
      · simp only [List.mem_singleton] at h
        subst h
        exact hc2.2
    obtain ⟨rfl, rfl⟩ := append_singleton_inj (joinSegs_inj hall1 hall2 hp)
    exact (accepts_iff_reachable.mp hacc).2
  · intro hext
    have hacc := accepts_iff_reachable.mpr ⟨hreach, hext⟩
    have := (mem_find_files_iff cwd directory root extensions ignore_items
      (abspath cwd (joinSegs directory (segs ++ [f])))).mpr ⟨segs, f, hacc, rfl⟩
    rwa [abspath_of_isAbs (isAbs_joinSegs _ habs)] at this

theorem find_files_ext_suffix_iff_witness :
    reachable (mkCfg "/c" [".py"] []) "/r" [FSTree.file "Main.PY"]
      [] "Main.PY" = true ∧
    joinSegs "/r" ([] ++ ["Main.PY"]) ∈
      find_files "/c" "/r" [FSTree.file "Main.PY"] [".py"] [] := by
  have hr : reachable (mkCfg "/c" [".py"] []) "/r" [FSTree.file "Main.PY"]
      [] "Main.PY" = true := by
    simp [reachable, mkCfg, ignoreBasenames, ignoreFullPaths]
  refine ⟨hr, ?_⟩
  exact (find_files_ext_suffix_iff "/c" "/r" [FSTree.file "Main.PY"] [".py"] []
    [] "Main.PY" (by simp [cleanTree, cleanName, hasSep]) (by decide) hr).mpr
    (by decide)

/-! ## The tree renderer `generate_file_tree` (`utils.py` lines 64–104)

The nested Python dict is `List (String × PyVal)` preserving insertion order;
`PyVal.leaf` is the `None` file marker.  Stdlib models: `splitOnSep` /
`splitSep` model `str.split(sep)`, `strJoin` models `sep.join`, `dirname` /
`basename` / `splitext_ext` model the `posixpath` functions of the same name,
`relpath` models `posixpath.relpath`, `commonPrefixLen` the common-prefix step
inside it. -/

/-- Model of Python `str.split(sep)` on character lists: splitting on a single
separator character, keeping empty pieces (`"".split(sep) == ['']`). -/
def splitOnSep (c : Char) : List Char → List (List Char)
  | [] => [[]]
  | x :: rest =>
    if x = c then [] :: splitOnSep c rest
    else
      match splitOnSep c rest with
      | r :: rs => (x :: r) :: rs
      | [] => [[x]]

/-- Python `s.split(sep)` for a one-character separator. -/
def splitSep (s : String) (c : Char) : List String :=
  (splitOnSep c s.data).map String.mk

/-- Python `sep.join(parts)`. -/
def strJoin (sep : String) : List String → String
  | [] => ""
  | [x] => x
  | x :: rest => x ++ sep ++ strJoin sep rest

/-- Model of `posixpath.dirname`: everything before the last separator, with
trailing separators stripped unless the result is all separators; `""` when
there is no separator. -/
def dirname (p : String) : String :=
  let tl := p.data.reverse.dropWhile (fun c => c != '/')
  if tl = [] then ""
  else if tl.all (fun c => c == '/') then String.mk tl.reverse
  else String.mk (tl.dropWhile (fun c => c == '/')).reverse

/-- Model of `posixpath.basename`: everything after the last separator. -/
def basename (p : String) : String :=
  String.mk (p.data.reverse.takeWhile (fun c => c != '/')).reverse

/-- The extension part of `posixpath.splitext`: from the last dot of the
basename, provided some earlier character of the basename is not a dot
(so `".bashrc"` has no extension). -/
def splitext_ext (p : String) : String :=
  let rb := p.data.reverse.takeWhile (fun c => c != '/')
  if rb.any (fun c => c == '.') then
    let rext := rb.takeWhile (fun c => c != '.') ++ ['.']
    let rrest := (rb.dropWhile (fun c => c != '.')).tail
    if rrest.any (fun c => c != '.') then String.mk rext.reverse else ""
  else ""

/-- The fence language tag of `aggregate_code`:
`os.path.splitext(file_path)[1].lstrip(".")`. -/
def lang (p : String) : String :=
  String.mk ((splitext_ext p).data.dropWhile (fun c => c == '.'))

/-- Path components of an absolute form of `p`, dropping empty pieces —
the `[x for x in abspath(p).split(sep) if x]` step of `posixpath.relpath`. -/
def pathParts (cwd p : String) : List String :=
  (splitSep (abspath cwd p) '/').filter (fun s => s ≠ "")

/-- Length of the common prefix of two component lists
(the `commonprefix` step of `posixpath.relpath`). -/
def commonPrefixLen : List String → List String → Nat
  | a :: as, b :: bs => if a = b then 1 + commonPrefixLen as bs else 0
  | _, _ => 0

/-- Model of `posixpath.relpath(p, start)`: drop the common component prefix,
go up with `".."` for each remaining component of `start`, then down the
remaining components of `p`. -/
def relpath (cwd p start : String) : String :=
  let pl := pathParts cwd p
  let sl := pathParts cwd start
  let i := commonPrefixLen sl pl
  let rel := List.replicate (sl.length - i) ".." ++ pl.drop i
  if rel = [] then "." else strJoin "/" rel

/-- A Python value stored in the nested tree dict: `None` (a file marker) or a
nested dict, with entries in insertion order. -/
inductive PyVal where
  | leaf
  | node (entries : List (String × PyVal))

/-- Python dict lookup. -/
def dictGet : List (String × PyVal) → String → Option PyVal
  | [], _ => none
  | (k', v') :: rest, k => if k' = k then some v' else dictGet rest k

/-- Python dict assignment: replace in place when the key exists, append
otherwise. -/
def dictSet : List (String × PyVal) → String → PyVal → List (String × PyVal)
  | [], k, v => [(k, v)]
  | (k', v') :: rest, k, v =>
    if k' = k then (k, v) :: rest else (k', v') :: dictSet rest k v

/-- Inserting one split relative path into the tree dict (`utils.py`
lines 70–87): walk `parts[:-1]`, creating empty dicts for missing keys, then
assign `None` at the last part.  `none` models the `TypeError` the Python
code raises when the walk meets a name already assigned `None`. -/
def insertParts (d : List (String × PyVal)) :
    List String → Option (List (String × PyVal))
  | [] => none
  | [last] => some (dictSet d last PyVal.leaf)
  | part :: rest =>
    match dictGet d part with
    | none => (insertParts [] rest).map (fun sub => dictSet d part (PyVal.node sub))
    | some (PyVal.node sub) =>
      (insertParts sub rest).map (fun sub' => dictSet d part (PyVal.node sub'))
    | some PyVal.leaf => none

/-- The tree-building loop of `generate_file_tree`. -/
def buildTree (cwd root_dir : String) (paths : List String) :
    Option (List (String × PyVal)) :=
  paths.foldlM
    (fun d p => insertParts d (splitSep (relpath cwd p root_dir) '/')) []

/-- Is the entry a directory (`sub_node is not None`)? -/
def isDirEntry : String × PyVal → Bool
  | (_, PyVal.leaf) => false
  | (_, PyVal.node _) => true

/-- Python's `sorted(node.items(), key=lambda x: x[1] is not None)`: a stable
sort on a Boolean key is exactly the false-key elements in original order
followed by the true-key elements in original order. -/
def sortEntries (l : List (String × PyVal)) : List (String × PyVal) :=
  l.filter (fun e => !isDirEntry e) ++ l.filter (fun e => isDirEntry e)

/-- The icon chosen per entry. -/
def icon : PyVal → String
  | PyVal.leaf => "📄 "
  | PyVal.node _ => "📁 "

theorem sizeOf_append_entries (a b : List (String × PyVal)) :
    sizeOf (a ++ b) + 1 = sizeOf a + sizeOf b := by
  induction a with
  | nil =>
    simp only [List.nil_append, List.nil.sizeOf_spec]
    omega
  | cons x t ih =>
    simp only [List.cons_append, List.cons.sizeOf_spec]
    omega

theorem sizeOf_filter_partition (p : String × PyVal → Bool)
    (l : List (String × PyVal)) :
    sizeOf (l.filter p) + sizeOf (l.filter (fun e => !p e)) = sizeOf l + 1 := by
  induction l with
  | nil => simp
  | cons x t ih =>
    cases hp : p x <;>
      simp only [List.filter_cons, hp, Bool.not_true, Bool.not_false,
        ite_true, ite_false, Bool.false_eq_true, Bool.true_eq_false,
        List.cons.sizeOf_spec] <;>
      omega

theorem sizeOf_sortEntries (l : List (String × PyVal)) :
    sizeOf (sortEntries l) = sizeOf l := by
  have h1 := sizeOf_append_entries (l.filter (fun e => !isDirEntry e))
    (l.filter (fun e => isDirEntry e))
  have h2 := sizeOf_filter_partition (fun e => isDirEntry e) l
  simp only [sortEntries]
  omega

mutual

/-- One call of the Python inner `format_tree(node, prefix)`: sort the node's
items (files before directories, stable) and render them. -/
def renderEntries (entries : List (String × PyVal)) (pre : String) :
    List String :=
  renderItems (sortEntries entries) pre
termination_by (sizeOf entries, 1)
decreasing_by
  rw [sizeOf_sortEntries]
  exact Prod.Lex.right _ (by omega)

/-- The `for pointer, (name, sub_node) in zip(pointers, items)` loop: every
item but the last uses the `├─── ` connector and extends the prefix with
`│   `; the last uses `└─── ` and pads with spaces; directories recurse. -/
def renderItems : List (String × PyVal) → String → List String
  | [], _ => []
  | [(name, v)], pre =>
    (pre ++ "└─── " ++ icon v ++ name) ::
      (match v with
       | PyVal.leaf => []
       | PyVal.node sub => renderEntries sub (pre ++ "    "))
  | (name, v) :: rest, pre =>
    ((pre ++ "├─── " ++ icon v ++ name) ::
      (match v with
       | PyVal.leaf => []
       | PyVal.node sub => renderEntries sub (pre ++ "│   "))) ++
      renderItems rest pre
termination_by l _ => (sizeOf l, 0)
decreasing_by
  all_goals refine Prod.Lex.left _ _ ?_
  all_goals
    simp only [List.cons.sizeOf_spec, Prod.mk.sizeOf_spec,
      PyVal.node.sizeOf_spec, List.nil.sizeOf_spec]
  all_goals omega

end

/-- `generate_file_tree(root_dir, file_paths, log_queue)` (`utils.py`
lines 64–104).  Returns `none` when the Python code would raise `TypeError`
(inserting a path through a name already recorded as a file); the
`ValueError` fallback of the source cannot trigger under the POSIX `relpath`
model and is not represented.  The log side channel is handled by the caller
(`aggregate_code`). -/
def generate_file_tree (cwd root_dir : String) (file_paths : List String) :
    Option String :=
  (buildTree cwd root_dir file_paths).map fun d =>
    strJoin "\n" (basename root_dir :: renderEntries d "")




/-! ## The aggregation writer `aggregate_code`

`FS` abstracts the filesystem state the code consults: `os.path.exists`,
whether `os.makedirs` is denied (beyond the unconditional failure on the empty
path), write permission for `open(..., "w")`, the error strings of raised
exceptions, and the outcome of reading each input file (`errors="ignore"`
decode substitution is inside the returned content).  `makedirs` and `openOk`
model the stdlib behaviour: `os.makedirs("")` raises `FileNotFoundError`;
opening for write succeeds iff the parent directory exists (the working
directory for a bare filename) and permission allows.  A run returns
`none` when the Python function would propagate an uncaught exception
(the tree builder's `TypeError`); otherwise `AggResult` carries the Python
return value (`some false` for `return False`, `none` for falling off the
end), the final content of the output file when it was opened, and the two
queues. -/

inductive ReadOutcome where
  | ok (content : String)
  | err (msg : String)
  deriving DecidableEq

structure FS where
  pathExists : String → Bool
  mkdirDenied : String → Bool
  mkdirErrMsg : String → String
  writeAllowed : String → Bool
  openErrMsg : String → String
  readFile : String → ReadOutcome

def makedirs (fs : FS) (d : String) : Except String FS :=
  if d = "" then Except.error (fs.mkdirErrMsg d)
  else if fs.mkdirDenied d then Except.error (fs.mkdirErrMsg d)
  else Except.ok { fs with pathExists := fun p => p = d || fs.pathExists p }

def openOk (fs : FS) (f : String) : Bool :=
  (dirname f == "" || fs.pathExists (dirname f)) && fs.writeAllowed f

structure AggResult where
  retval : Option Bool
  output : Option String
  logs : List String
  progress : List ℚ
  deriving DecidableEq

def sepEq : String := String.mk (List.replicate 80 '=')

def sepDash : String := String.mk (List.replicate 80 '-')

def headerStr (root_dir : String) (total : Nat) : String :=
  sepEq ++ "\n" ++ "根目录: " ++ root_dir ++ "\n" ++
    "共 " ++ toString total ++ " 个文件\n" ++ sepEq ++ "\n\n"

def treeSection (t : String) : String :=
  "文件结构树:\n" ++ t ++ "\n\n" ++ sepEq ++ "\n\n"

def sepBlock (p : String) : String :=
  sepDash ++ "\n" ++ "文件路径: " ++ p ++ "\n" ++ sepDash ++ "\n\n"

def errMarker (p msg : String) : String :=
  "!!! 读取文件时出错: " ++ p ++ " -> " ++ msg ++ " !!!\n\n"

def contentBlock (fmt content p : String) : String :=
  if fmt = ".md" then "```" ++ lang p ++ "\n" ++ content ++ "\n```\n\n"
  else content ++ "\n\n"

def blockStr (fs : FS) (fmt p : String) : String :=
  sepBlock p ++
    (match fs.readFile p with
     | ReadOutcome.ok content => contentBlock fmt content p
     | ReadOutcome.err e => errMarker p e)

def concatStrs : List String → String
  | [] => ""
  | s :: rest => s ++ concatStrs rest

def bodyStr (fs : FS) (fmt : String) (file_paths : List String) : String :=
  concatStrs (file_paths.map (blockStr fs fmt))

def progressList (total : Nat) : List ℚ :=
  (List.range total).map (fun i : Nat => ((i : ℚ) + 1) / (total : ℚ) * 100)

def writeLog (i total : Nat) (p : String) : String :=
  "正在写入 (" ++ toString (i + 1) ++ "/" ++ toString total ++ "): " ++ p

def perFileLogs (fs : FS) (total : Nat) (file_paths : List String) : List String :=
  file_paths.enum.flatMap fun ip =>
    writeLog ip.1 total ip.2 ::
      (match fs.readFile ip.2 with
       | ReadOutcome.ok _ => []
       | ReadOutcome.err e => [errMarker ip.2 e])

def treeLogs : List String := ["正在生成文件结构树...", "文件结构树生成完毕。"]

def finalLog (output_filename : String) : String :=
  "所有代码内容已成功聚合到 '" ++ basename output_filename ++ "' 文件中。"

def aggCore (fs : FS) (cwd root_dir : String) (file_paths : List String)
    (output_filename output_format : String) (logs0 : List String) :
    Option AggResult :=
  let total := file_paths.length
  if openOk fs output_filename then
    let logs1 := logs0 ++ ["正在创建并写入文件: " ++ output_filename]
    if file_paths.isEmpty then
      some ⟨none, some (headerStr root_dir total),
        logs1 ++ [finalLog output_filename], progressList total⟩
    else
      match generate_file_tree cwd root_dir file_paths with
      | none => none
      | some t =>
        some ⟨none,
          some (headerStr root_dir total ++ treeSection t ++
            bodyStr fs output_format file_paths),
          logs1 ++ treeLogs ++ perFileLogs fs total file_paths ++
            [finalLog output_filename],
          progressList total⟩
  else
    some ⟨none, none,
      logs0 ++ ["错误：无法写入文件 " ++ output_filename ++ "。-> " ++
        fs.openErrMsg output_filename], []⟩

def aggregate_code (fs : FS) (cwd root_dir : String) (file_paths : List String)
    (output_filename output_format : String) : Option AggResult :=
  let output_dir := dirname output_filename
  if fs.pathExists output_dir then
    aggCore fs cwd root_dir file_paths output_filename output_format []
  else
    match makedirs fs output_dir with
    | Except.ok fs2 =>
      aggCore fs2 cwd root_dir file_paths output_filename output_format
        ["自动创建输出目录: " ++ output_dir]
    | Except.error e =>
      some ⟨some false, none,
        ["创建输出目录失败: " ++ output_dir ++ " - " ++ e], []⟩

def Gui.aggregate_code (fs : FS) (cwd root_dir : String)
    (file_paths : List String) (output_filename output_format : String) :
    Option AggResult :=
  aggCore fs cwd root_dir file_paths output_filename output_format []

def demoFS : FS where
  pathExists := fun d => d == "out"
  mkdirDenied := fun _ => false
  mkdirErrMsg := fun _ => "err"
  writeAllowed := fun _ => true
  openErrMsg := fun _ => "err"
  readFile := fun _ => ReadOutcome.ok "print(1)"

/-! ## Claims C6, C7, C8, C10 -/

/-- C8, behaviour at the failing input: when the output path is a bare
filename its directory component is `""`; `os.path.exists("")` is `False`, so
the code attempts `os.makedirs("")`, which raises, and the function logs the
failure and returns `False` without opening the output — although the working
directory exists and the spec expects the write to proceed. -/
theorem aggregate_code_bare_filename_aborts
    (fs : FS) (cwd root_dir : String) (file_paths : List String)
    (output_filename output_format : String)
    (hbare : dirname output_filename = "")
    (hex : fs.pathExists "" = false) :
    aggregate_code fs cwd root_dir file_paths output_filename output_format =
      some ⟨some false, none,
        ["创建输出目录失败: " ++ "" ++ " - " ++ fs.mkdirErrMsg ""], []⟩ := by
  simp [aggregate_code, makedirs, hbare, hex]

theorem aggregate_code_bare_filename_aborts_witness :
    dirname "summary.md" = "" ∧ demoFS.pathExists "" = false ∧
    aggregate_code demoFS "/c" "/r" ["/r/a.py"] "summary.md" ".md" =
      some ⟨some false, none,
        ["创建输出目录失败: " ++ "" ++ " - " ++ demoFS.mkdirErrMsg ""], []⟩ :=
  ⟨by decide, by decide,
    aggregate_code_bare_filename_aborts demoFS "/c" "/r" ["/r/a.py"]
      "summary.md" ".md" (by decide) (by decide)⟩

/-- C10 (amended): the two `aggregate_code` variants agree whenever the
output path's directory component exists at call time — the only difference
between them is the directory-creation preamble of the `utils.py` variant. -/
theorem aggregate_code_utils_eq_gui_of_dir_exists
    (fs : FS) (cwd root_dir : String) (file_paths : List String)
    (output_filename output_format : String)
    (hdir : fs.pathExists (dirname output_filename) = true) :
    aggregate_code fs cwd root_dir file_paths output_filename output_format =
      Gui.aggregate_code fs cwd root_dir file_paths output_filename
        output_format := by
  simp [aggregate_code, Gui.aggregate_code, hdir]

/-- Filesystem with no existing directories: distinguishes the two variants. -/
def fsNoDirs : FS where
  pathExists := fun _ => false
  mkdirDenied := fun _ => false
  mkdirErrMsg := fun _ => "err"
  writeAllowed := fun _ => true
  openErrMsg := fun _ => "err"
  readFile := fun _ => ReadOutcome.ok "print(1)"

/-- C10, counterexample: with the output directory missing, the `utils.py`
variant creates it and writes the artifact while the GUI variant fails to
open the output and writes nothing — the two cores are not behaviourally
equivalent. -/
theorem aggregate_code_utils_gui_differ :
    (aggregate_code fsNoDirs "/c" "/r" ["/r/a.py"] "out/s.md" ".md").map
        (fun r => r.output.isSome) = some true ∧
    (Gui.aggregate_code fsNoDirs "/c" "/r" ["/r/a.py"] "out/s.md" ".md").map
        (fun r => r.output.isSome) = some false := by
  constructor
  · simp [aggregate_code, aggCore, fsNoDirs, makedirs, openOk, dirname,
      generate_file_tree, buildTree, relpath, pathParts, abspath, isAbs, pjoin,
      splitSep, splitOnSep, commonPrefixLen, strJoin, insertParts, dictGet,
      dictSet, basename, renderEntries, renderItems, sortEntries, isDirEntry,
      icon]
  · simp [Gui.aggregate_code, aggCore, fsNoDirs, openOk, dirname]

theorem aggregate_code_utils_eq_gui_of_dir_exists_witness :
    demoFS.pathExists (dirname "out/s.md") = true ∧
    aggregate_code demoFS "/c" "/r" ["/r/a.py"] "out/s.md" ".md" =
      Gui.aggregate_code demoFS "/c" "/r" ["/r/a.py"] "out/s.md" ".md" :=
  ⟨by decide,
    aggregate_code_utils_eq_gui_of_dir_exists demoFS "/c" "/r" ["/r/a.py"]
      "out/s.md" ".md" (by decide)⟩

/-- The candidate path tried at counter `n` by `get_unique_filepath`
(`utils.py` lines 107–128): the plain `filename + extension` for `n = 0`,
`filename + " (n)" + extension` afterwards. -/
def candidatePath (directory filename extension : String) : Nat → String
  | 0 => pjoin directory (filename ++ extension)
  | Nat.succ n =>
    pjoin directory (filename ++ " (" ++ toString (n + 1) ++ ")" ++ extension)

/-- `get_unique_filepath(directory, filename, extension, log_queue)`
(`utils.py` lines 107–128).  `ex` models `os.path.exists` at call time.  The
Python `while True` loop terminates exactly when some candidate is free; the
hypothesis `h` carries that (on a real filesystem only finitely many paths
exist), and `Nat.find` returns the first free candidate exactly as the loop
does.  The log side channel is not modelled. -/
def get_unique_filepath (ex : String → Bool)
    (directory filename extension : String)
    (h : ∃ n, ex (candidatePath directory filename extension n) = false) :
    String :=
  candidatePath directory filename extension (Nat.find h)

/-- C6: the returned path does not exist at call time; it is the base
candidate when that is free, and otherwise the first free numbered candidate
(every smaller counter, the base included, being taken). -/
theorem get_unique_filepath_first_free (ex : String → Bool)
    (directory filename extension : String)
    (h : ∃ n, ex (candidatePath directory filename extension n) = false) :
    ex (get_unique_filepath ex directory filename extension h) = false ∧
    ∃ k, get_unique_filepath ex directory filename extension h =
        candidatePath directory filename extension k ∧
      (∀ j < k, ex (candidatePath directory filename extension j) = true) ∧
      (ex (candidatePath directory filename extension 0) = false → k = 0) := by
  refine ⟨Nat.find_spec h, Nat.find h, rfl, ?_, ?_⟩
  · intro j hj
    have := Nat.find_min h hj
    simpa using this
  · intro h0
    exact Nat.eq_zero_of_le_zero (Nat.find_le h0)

def demoExistsFn : String → Bool :=
  fun s => s == "out/summary.md" || s == "out/summary (1).md"

theorem demoExistsFn_free :
    ∃ n, demoExistsFn (candidatePath "out" "summary" ".md" n) = false :=
  ⟨2, by decide⟩

theorem get_unique_filepath_first_free_witness :
    demoExistsFn
        (get_unique_filepath demoExistsFn "out" "summary" ".md"
          demoExistsFn_free) = false ∧
    get_unique_filepath demoExistsFn "out" "summary" ".md" demoExistsFn_free =
      "out/summary (2).md" := by
  constructor
  · exact (get_unique_filepath_first_free demoExistsFn "out" "summary" ".md"
      demoExistsFn_free).1
  · have hfind : Nat.find demoExistsFn_free = 2 := by
      rw [Nat.find_eq_iff]
      exact ⟨by decide, by decide⟩
    unfold get_unique_filepath
    rw [hfind]
    decide

theorem aggregate_code_progress_cases {fs : FS} {cwd root_dir : String}
    {files : List String} {ofn fmt : String} {res : AggResult}
    (h : aggregate_code fs cwd root_dir files ofn fmt = some res) :
    (res.output.isSome ∧ res.progress = progressList files.length) ∨
    (res.output = none ∧ res.progress = []) := by
  unfold aggregate_code at h
  dsimp only at h
  split at h
  case isTrue =>
    unfold aggCore at h
    dsimp only at h
    split at h
    case isTrue =>
      split at h
      case isTrue =>
        injection h with h
        subst h
        exact Or.inl ⟨rfl, rfl⟩
      case isFalse =>
        split at h
        · exact absurd h (by simp)
        · injection h with h
          subst h
          exact Or.inl ⟨rfl, rfl⟩
    case isFalse =>
      injection h with h
      subst h
      exact Or.inr ⟨rfl, rfl⟩
  case isFalse =>
    split at h
    case h_1 fs2 heq =>
      unfold aggCore at h
      dsimp only at h
      split at h
      case isTrue =>
        split at h
        case isTrue =>
          injection h with h
          subst h
          exact Or.inl ⟨rfl, rfl⟩
        case isFalse =>
          split at h
          · exact absurd h (by simp)
          · injection h with h
            subst h
            exact Or.inl ⟨rfl, rfl⟩
      case isFalse =>
        injection h with h
        subst h
        exact Or.inr ⟨rfl, rfl⟩
    case h_2 e heq =>
      injection h with h
      subst h
      exact Or.inr ⟨rfl, rfl⟩

theorem progressList_bounds (n : Nat) :
    ∀ x ∈ progressList n, 0 < x ∧ x ≤ 100 := by
  intro x hx
  obtain ⟨i, hi, rfl⟩ := List.mem_map.mp hx
  rw [List.mem_range] at hi
  have hn : (0 : ℚ) < (n : ℚ) := by
    have : 0 < n := Nat.pos_of_ne_zero (by omega)
    exact_mod_cast this
  constructor
  · have h1 : (0 : ℚ) < (i : ℚ) + 1 := by positivity
    have := div_pos h1 hn
    positivity
  · have h1 : ((i : ℚ) + 1) ≤ (n : ℚ) := by
      have : i + 1 ≤ n := hi
      exact_mod_cast this
    have h2 : ((i : ℚ) + 1) / (n : ℚ) ≤ 1 := (div_le_one hn).mpr h1
    calc ((i : ℚ) + 1) / (n : ℚ) * 100 ≤ 1 * 100 := by
          exact mul_le_mul_of_nonneg_right h2 (by norm_num)
      _ = 100 := by norm_num

theorem progressList_strict_mono (n : Nat) :
    (progressList n).Pairwise (· < ·) := by
  rcases Nat.eq_zero_or_pos n with rfl | hn
  · simp [progressList]
  · have hnq : (0 : ℚ) < (n : ℚ) := by exact_mod_cast hn
    refine List.Pairwise.map _ ?_ (List.pairwise_lt_range n)
    intro a b hab
    have h1 : ((a : ℚ) + 1) < ((b : ℚ) + 1) := by
      have : (a : ℚ) < (b : ℚ) := by exact_mod_cast hab
      linarith
    gcongr

/-- C7 (amended): every value pushed to the progress queue in one run is a
percentage `(i+1)/N * 100` lying in `(0, 100]`, the emitted sequence is
strictly increasing, and whenever the run opens the output (so the writing
loop runs) the sequence is exactly `[(1/N)*100, ..., (N/N)*100]`.  The source
multiplies by 100 for the GUI progress bar, so the values are not the
fractions in `[0,1]` the claim states. -/
theorem aggregate_code_progress_amended {fs : FS} {cwd root_dir : String}
    {files : List String} {ofn fmt : String} {res : AggResult}
    (h : aggregate_code fs cwd root_dir files ofn fmt = some res) :
    (∀ x ∈ res.progress, 0 < x ∧ x ≤ 100) ∧
    res.progress.Pairwise (· < ·) ∧
    (res.output.isSome → res.progress =
      (List.range files.length).map
        (fun i : Nat => ((i : ℚ) + 1) / (files.length : ℚ) * 100)) := by
  rcases aggregate_code_progress_cases h with ⟨hs, hp⟩ | ⟨hn, hp⟩
  · rw [hp]
    exact ⟨progressList_bounds _, progressList_strict_mono _, fun _ => rfl⟩
  · rw [hp]
    exact ⟨by simp, by simp, fun hcontra => by simp [hn] at hcontra⟩

/-- C7, counterexample to the claim as stated: a run over one file emits the
single progress value 100 — not a fraction in `[0,1]`, and not `(0+1)/1 = 1`. -/
theorem aggregate_code_progress_counterexample :
    (aggregate_code demoFS "/c" "/r" ["/r/a.py"] "out/s.md" ".md").map
        AggResult.progress = some [(100 : ℚ)] ∧
    ¬ ((100 : ℚ) ≤ 1) := by
  constructor
  · simp [aggregate_code, aggCore, demoFS, openOk, dirname, generate_file_tree,
      buildTree, relpath, pathParts, abspath, isAbs, pjoin, splitSep,
      splitOnSep, commonPrefixLen, strJoin, insertParts, dictGet, dictSet,
      basename, renderEntries, renderItems, sortEntries, isDirEntry, icon,
      progressList]
    norm_num [List.range_succ]
  · norm_num

theorem aggregate_code_progress_amended_witness :
    (∃ res, aggregate_code demoFS "/c" "/r" ["/r/a.py"] "out/s.md" ".md" =
        some res ∧
      (∀ x ∈ res.progress, 0 < x ∧ x ≤ 100) ∧
      res.progress.Pairwise (· < ·)) := by
  have hrun : ∃ res,
      aggregate_code demoFS "/c" "/r" ["/r/a.py"] "out/s.md" ".md" =
        some res := by
    simp [aggregate_code, aggCore, demoFS, openOk, dirname, generate_file_tree,
      buildTree, relpath, pathParts, abspath, isAbs, pjoin, splitSep,
      splitOnSep, commonPrefixLen, strJoin, insertParts, dictGet, dictSet,
      basename, renderEntries, renderItems, sortEntries, isDirEntry, icon]
  obtain ⟨res, hres⟩ := hrun
  exact ⟨res, hres, (aggregate_code_progress_amended hres).1,
    (aggregate_code_progress_amended hres).2.1⟩

/-! ## Claim C9 -/

theorem takeWhile_all {p : Char → Bool} {l : List Char}
    (h : ∀ c ∈ l, p c = true) : l.takeWhile p = l := by
  induction l with
  | nil => rfl
  | cons c t ih =>
    simp only [List.takeWhile_cons, h c (by simp), ite_true]
    rw [ih (fun d hd => h d (by simp [hd]))]

theorem firstLine_strJoin (x : String) (rest : List String)
    (hx : '\n' ∉ x.data) :
    (strJoin "\n" (x :: rest)).data.takeWhile (fun c => c != '\n') = x.data := by
  have hall : ∀ c ∈ x.data, (fun c => c != '\n') c = true := by
    intro c hc
    simp only [bne_iff_ne, ne_eq]
    rintro rfl
    exact hx hc
  cases rest with
  | nil => exact takeWhile_all hall
  | cons y t =>
    show ((x ++ "\n") ++ strJoin "\n" (y :: t)).data.takeWhile _ = _
    rw [String.data_append, String.data_append]
    rw [List.append_assoc]
    rw [takeWhile_append_of_all hall]
    simp [List.takeWhile_cons]

/-- C9: rendering is deterministic (a pure function of its arguments); the
first line of a successful rendering is the root directory's basename; and at
every node the rendered order is exactly the non-directory entries in
insertion order followed by the directory entries in insertion order. -/
theorem generate_file_tree_deterministic_sorted
    (cwd root_dir : String) (paths : List String) :
    generate_file_tree cwd root_dir paths =
        generate_file_tree cwd root_dir paths ∧
    (∀ t, generate_file_tree cwd root_dir paths = some t →
      '\n' ∉ (basename root_dir).data →
      String.mk (t.data.takeWhile (fun c => c != '\n')) = basename root_dir) ∧
    (∀ (entries : List (String × PyVal)) (pre : String),
      sortEntries entries =
        entries.filter (fun e => !isDirEntry e) ++
          entries.filter (fun e => isDirEntry e) ∧
      (∀ e ∈ entries.filter (fun e => !isDirEntry e), isDirEntry e = false) ∧
      (∀ e ∈ entries.filter (fun e => isDirEntry e), isDirEntry e = true) ∧
      renderEntries entries pre = renderItems (sortEntries entries) pre) := by
  refine ⟨rfl, ?_, ?_⟩
  · intro t ht hnl
    unfold generate_file_tree at ht
    obtain ⟨d, _, rfl⟩ := Option.map_eq_some'.mp ht
    rw [firstLine_strJoin _ _ hnl]
  · intro entries pre
    refine ⟨rfl, ?_, ?_, ?_⟩
    · intro e he
      have := List.of_mem_filter he
      simpa using this
    · intro e he
      exact List.of_mem_filter he
    · rw [renderEntries]

theorem generate_file_tree_deterministic_sorted_witness :
    generate_file_tree "/c" "/r" ["/r/a/b.py", "/r/top.py"] =
        some "r\n├─── 📄 top.py\n└─── 📁 a\n    └─── 📄 b.py" ∧
    String.mk
        (("r\n├─── 📄 top.py\n└─── 📁 a\n    └─── 📄 b.py" : String).data.takeWhile
          (fun c => c != '\n')) = basename "/r" := by
  have htree : generate_file_tree "/c" "/r" ["/r/a/b.py", "/r/top.py"] =
      some "r\n├─── 📄 top.py\n└─── 📁 a\n    └─── 📄 b.py" := by
    simp [generate_file_tree, buildTree, relpath, pathParts, abspath, isAbs,
      pjoin, splitSep, splitOnSep, commonPrefixLen, strJoin, insertParts,
      dictGet, dictSet, basename, renderEntries, renderItems, sortEntries,
      isDirEntry, icon]
  exact ⟨htree,
    (generate_file_tree_deterministic_sorted "/c" "/r"
      ["/r/a/b.py", "/r/top.py"]).2.1 _ htree (by decide)⟩

/-! ## Claim C4 -/

theorem data_concatStrs (L : List String) :
    (concatStrs L).data = (L.map String.data).flatten := by
  induction L with
  | nil => rfl
  | cons s rest ih =>
    show (s ++ concatStrs rest).data = _
    rw [String.data_append, ih]
    simp

theorem block_infix_body {fs : FS} {fmt : String} {files : List String}
    {q : String} (hq : q ∈ files) :
    (blockStr fs fmt q).data <:+: (bodyStr fs fmt files).data := by
  rw [bodyStr, data_concatStrs]
  exact List.infix_of_mem_flatten
    (List.mem_map_of_mem _ (List.mem_map_of_mem _ hq))

theorem infix_body_infix_out {x : List Char} {root_dir : String} {n : Nat}
    {t : String} {b : String} (h : x <:+: b.data) :
    x <:+: (headerStr root_dir n ++ treeSection t ++ b).data := by
  refine h.trans ?_
  rw [String.data_append]
  exact (List.suffix_append _ _).isInfix

theorem errMarker_infix_block {fs : FS} {fmt p msg : String}
    (h : fs.readFile p = ReadOutcome.err msg) :
    (errMarker p msg).data <:+: (blockStr fs fmt p).data := by
  refine ⟨(sepBlock p).data, [], ?_⟩
  simp [blockStr, h, String.data_append]

theorem sepBlock_infix_block {fs : FS} {fmt p : String} :
    (sepBlock p).data <:+: (blockStr fs fmt p).data := by
  refine ⟨[], (match fs.readFile p with
    | ReadOutcome.ok content => contentBlock fmt content p
    | ReadOutcome.err e => errMarker p e).data, ?_⟩
  simp [blockStr, String.data_append]

theorem content_infix_block {fs : FS} {fmt q c : String}
    (h : fs.readFile q = ReadOutcome.ok c) :
    c.data <:+: (blockStr fs fmt q).data := by
  by_cases hf : fmt = ".md"
  · refine ⟨(sepBlock q ++ "```" ++ lang q ++ "\n").data, ("\n```\n\n" : String).data, ?_⟩
    simp [blockStr, h, contentBlock, hf, String.data_append, List.append_assoc]
  · refine ⟨(sepBlock q).data, ("\n\n" : String).data, ?_⟩
    simp [blockStr, h, contentBlock, hf, String.data_append, List.append_assoc]

theorem aggregate_code_run (fs : FS) (cwd root_dir : String)
    (files : List String) (ofn fmt t : String)
    (hdir : fs.pathExists (dirname ofn) = true)
    (hopen : openOk fs ofn = true)
    (hne : files ≠ [])
    (htree : generate_file_tree cwd root_dir files = some t) :
    aggregate_code fs cwd root_dir files ofn fmt =
      some ⟨none,
        some (headerStr root_dir files.length ++ treeSection t ++
          bodyStr fs fmt files),
        ["正在创建并写入文件: " ++ ofn] ++ treeLogs ++
          perFileLogs fs files.length files ++ [finalLog ofn],
        progressList files.length⟩ := by
  simp [aggregate_code, hdir, aggCore, hopen, htree,
    List.isEmpty_iff, hne]

/-- C4: when reading one input file fails, the run completes normally
(Python return value `None`, no abort), the output artifact is written, and it
contains the inline error marker for the failed file, that file's separator
block, the header, and the full content of every file that did read
successfully. -/
theorem aggregate_code_read_failure_inline_marker
    (fs : FS) (cwd root_dir : String) (files : List String)
    (p ofn fmt msg t : String)
    (hdir : fs.pathExists (dirname ofn) = true)
    (hopen : openOk fs ofn = true)
    (hne : files ≠ [])
    (htree : generate_file_tree cwd root_dir files = some t)
    (hp : p ∈ files)
    (hread : fs.readFile p = ReadOutcome.err msg) :
    ∃ res out,
      aggregate_code fs cwd root_dir files ofn fmt = some res ∧
      res.retval = none ∧
      res.output = some out ∧
      (errMarker p msg).data <:+: out.data ∧
      (sepBlock p).data <:+: out.data ∧
      (headerStr root_dir files.length).data <:+: out.data ∧
      (∀ q ∈ files, ∀ c, fs.readFile q = ReadOutcome.ok c →
        c.data <:+: out.data) := by
  refine ⟨_, _, aggregate_code_run fs cwd root_dir files ofn fmt t hdir hopen
    hne htree, rfl, rfl, ?_, ?_, ?_, ?_⟩
  · exact infix_body_infix_out ((errMarker_infix_block hread).trans
      (block_infix_body hp))
  · exact infix_body_infix_out (sepBlock_infix_block.trans
      (block_infix_body hp))
  · refine (⟨[], (treeSection t ++ bodyStr fs fmt files).data, ?_⟩ :
      (headerStr root_dir files.length).data <:+:
        (headerStr root_dir files.length ++ treeSection t ++
          bodyStr fs fmt files).data)
    simp [String.data_append, List.append_assoc]
  · intro q hq c hc
    exact infix_body_infix_out ((content_infix_block hc).trans
      (block_infix_body hq))

/-- Filesystem where reading `/r/b.py` fails (deleted between discovery and
read) and everything else reads fine. -/
def demoFS2 : FS where
  pathExists := fun d => d == "out"
  mkdirDenied := fun _ => false
  mkdirErrMsg := fun _ => "err"
  writeAllowed := fun _ => true
  openErrMsg := fun _ => "err"
  readFile := fun p =>
    if p == "/r/b.py" then ReadOutcome.err "deleted"
    else ReadOutcome.ok "print(1)"

theorem aggregate_code_read_failure_inline_marker_witness :
    demoFS2.readFile "/r/b.py" = ReadOutcome.err "deleted" ∧
    ∃ res out,
      aggregate_code demoFS2 "/c" "/r" ["/r/a.py", "/r/b.py"] "out/s.md"
          ".md" = some res ∧
      res.retval = none ∧
      res.output = some out ∧
      (errMarker "/r/b.py" "deleted").data <:+: out.data ∧
      (sepBlock "/r/b.py").data <:+: out.data ∧
      (headerStr "/r" 2).data <:+: out.data ∧
      (∀ q ∈ ["/r/a.py", "/r/b.py"], ∀ c,
        demoFS2.readFile q = ReadOutcome.ok c → c.data <:+: out.data) := by
  have htree : generate_file_tree "/c" "/r" ["/r/a.py", "/r/b.py"] =
      some "r\n├─── 📄 a.py\n└─── 📄 b.py" := by
    simp [generate_file_tree, buildTree, relpath, pathParts, abspath, isAbs,
      pjoin, splitSep, splitOnSep, commonPrefixLen, strJoin, insertParts,
      dictGet, dictSet, basename, renderEntries, renderItems, sortEntries,
      isDirEntry, icon]
  exact ⟨by decide,
    aggregate_code_read_failure_inline_marker demoFS2 "/c" "/r"
      ["/r/a.py", "/r/b.py"] "/r/b.py" "out/s.md" ".md" "deleted"
      "r\n├─── 📄 a.py\n└─── 📄 b.py" (by decide) (by decide) (by decide)
      htree (by decide) (by decide)⟩

/-! ## Claim C5 -/

/-- Split a character list at the first occurrence of `pat`: the part before
the occurrence and the part after it. -/
def firstSplit (pat : List Char) : List Char → Option (List Char × List Char)
  | [] => if pat.isPrefixOf ([] : List Char) then some ([], []) else none
  | c :: rest =>
    if pat.isPrefixOf (c :: rest) then some ([], (c :: rest).drop pat.length)
    else (firstSplit pat rest).map (fun r => (c :: r.1, r.2))

/-- `pat` does not occur — not even straddling the boundary — anywhere in `a`
when `a` is followed by `pat ++ b`. -/
def noEarlyOccur (pat a b : List Char) : Prop :=
  ∀ t ∈ a.tails, t ≠ [] → ¬ pat.isPrefixOf (t ++ pat ++ b) = true

theorem firstSplit_exact (pat b : List Char) (hpat : pat ≠ []) :
    ∀ (a : List Char), noEarlyOccur pat a b →
      firstSplit pat (a ++ pat ++ b) = some (a, b) := by
  intro a
  induction a with
  | nil =>
    intro _
    match pat, hpat with
    | c :: pat', _ =>
      show firstSplit (c :: pat') ((([] : List Char) ++ (c :: pat')) ++ b) = _
      rw [List.nil_append]
      show firstSplit (c :: pat') (c :: (pat' ++ b)) = _
      rw [firstSplit]
      have hpre : (c :: pat').isPrefixOf (c :: (pat' ++ b)) = true := by
        simp [List.isPrefixOf_iff_prefix]
      rw [if_pos hpre]
      show some ([], ((c :: pat') ++ b).drop (c :: pat').length) = _
      rw [List.drop_left]
  | cons x a' ih =>
    intro h
    have hx : ¬ pat.isPrefixOf ((x :: a') ++ pat ++ b) = true :=
      h (x :: a') (by simp [List.mem_tails]) (by simp)
    show firstSplit pat (x :: (a' ++ pat ++ b)) = _
    rw [firstSplit]
    rw [if_neg (by simpa using hx)]
    rw [ih ?ha]
    case ha =>
      intro t ht htne
      exact h t (by
        rw [List.mem_tails] at ht ⊢
        exact ht.trans (List.suffix_cons _ _)) htne
    rfl

/-- Modelled from the spec: the round-trip extraction procedure of §8 — locate
the `文件路径` marker block for path `p`, skip the fence-opening line, and take
everything up to the closing fence.  This is the test-side reader, not part of
the source. -/
def extractFenced (out p : String) : Option String :=
  match firstSplit ("文件路径: " ++ p ++ "\n" ++ sepDash ++ "\n\n").data out.data with
  | none => none
  | some r1 =>
    match firstSplit ['\n'] r1.2 with
    | none => none
    | some r2 =>
      match firstSplit ('\n' :: ("```" : String).data) r2.2 with
      | none => none
      | some r3 => some (String.mk r3.1)

theorem noEarlyOccur_single {c : Char} {a b : List Char}
    (h : ∀ x ∈ a, x ≠ c) : noEarlyOccur [c] a b := by
  intro t ht htne hpre
  match t, htne with
  | x :: tt, _ =>
    have hx : x ∈ a := by
      rw [List.mem_tails] at ht
      exact ht.subset (by simp)
    have : c = x := by simpa [List.isPrefixOf] using hpre
    exact h x hx this.symm

theorem concatStrs_append (L1 L2 : List String) :
    concatStrs (L1 ++ L2) = concatStrs L1 ++ concatStrs L2 := by
  induction L1 with
  | nil => simp [concatStrs]
  | cons s rest ih =>
    show s ++ concatStrs (rest ++ L2) = (s ++ concatStrs rest) ++ concatStrs L2
    rw [ih, String.append_assoc]

theorem extractFenced_at (p content A0 langStr CA : String)
    (h1 : noEarlyOccur ("文件路径: " ++ p ++ "\n" ++ sepDash ++ "\n\n").data
      A0.data
      ("```" ++ langStr ++ "\n" ++ content ++ "\n```\n\n" ++ CA).data)
    (h2 : ∀ x ∈ langStr.data, x ≠ '\n')
    (h3 : noEarlyOccur ('\n' :: ("```" : String).data) content.data
      ("\n\n" ++ CA).data) :
    extractFenced
      (A0 ++ ("文件路径: " ++ p ++ "\n" ++ sepDash ++ "\n\n") ++
        ("```" ++ langStr ++ "\n" ++ content ++ "\n```\n\n" ++ CA)) p =
      some content := by
  have hpat1 : ("文件路径: " ++ p ++ "\n" ++ sepDash ++ "\n\n").data ≠ [] := by
    simp [String.data_append]
  have e1 : firstSplit ("文件路径: " ++ p ++ "\n" ++ sepDash ++ "\n\n").data
      (A0 ++ ("文件路径: " ++ p ++ "\n" ++ sepDash ++ "\n\n") ++
        ("```" ++ langStr ++ "\n" ++ content ++ "\n```\n\n" ++ CA)).data =
      some (A0.data,
        ("```" ++ langStr ++ "\n" ++ content ++ "\n```\n\n" ++ CA).data) := by
    rw [String.data_append, String.data_append]
    exact firstSplit_exact _ _ hpat1 _ h1
  have e2 : firstSplit ['\n']
      ("```" ++ langStr ++ "\n" ++ content ++ "\n```\n\n" ++ CA).data =
      some (("```" ++ langStr).data, (content ++ "\n```\n\n" ++ CA).data) := by
    have hBdecomp :
        ("```" ++ langStr ++ "\n" ++ content ++ "\n```\n\n" ++ CA).data =
        ("```" ++ langStr).data ++ ['\n'] ++
          (content ++ "\n```\n\n" ++ CA).data := by
      simp only [String.data_append,
        show ("\n" : String).data = ['\n'] from rfl, List.append_assoc]
    rw [hBdecomp]
    refine firstSplit_exact _ _ (by simp) _ (noEarlyOccur_single ?_)
    intro x hx
    rw [String.data_append] at hx
    rcases List.mem_append.mp hx with hm | hm
    · rw [show ("```" : String).data = ['`', '`', '`'] from rfl] at hm
      simp only [List.mem_cons, List.not_mem_nil, or_false] at hm
      rcases hm with rfl | rfl | rfl <;> decide
    · exact h2 x hm
  have e3 : firstSplit ('\n' :: ("```" : String).data)
      (content ++ "\n```\n\n" ++ CA).data =
      some (content.data, ("\n\n" ++ CA).data) := by
    have hdecomp : (content ++ "\n```\n\n" ++ CA).data =
        content.data ++ ('\n' :: ("```" : String).data) ++
          ("\n\n" ++ CA).data := by
      rw [String.data_append, String.data_append, String.data_append]
      rw [show ("\n```\n\n" : String).data =
        ('\n' :: ("```" : String).data) ++ ("\n\n" : String).data from rfl]
      simp [List.append_assoc]
    rw [hdecomp]
    exact firstSplit_exact _ _ (by simp) _ h3
  unfold extractFenced
  rw [e1]
  dsimp only
  rw [e2]
  dsimp only
  rw [e3]

theorem str_ext {a b : String} (h : a.data = b.data) : a = b := by
  cases a
  cases b
  exact congrArg String.mk h

/-- C5: in markdown mode, extracting the fenced block that follows the
`文件路径` marker of file `p` from the aggregated output reproduces `p`'s
content exactly.  The hypotheses are the implicit assumptions of the spec's
round-trip test: the marker block of `p` does not accidentally occur earlier
in the output, the language tag has no newline, and the content does not
contain a closing fence. -/
theorem aggregate_code_markdown_roundtrip
    (fs : FS) (cwd root_dir : String) (before after : List String)
    (p ofn content t : String)
    (hdir : fs.pathExists (dirname ofn) = true)
    (hopen : openOk fs ofn = true)
    (htree : generate_file_tree cwd root_dir (before ++ p :: after) = some t)
    (hread : fs.readFile p = ReadOutcome.ok content)
    (h1 : noEarlyOccur ("文件路径: " ++ p ++ "\n" ++ sepDash ++ "\n\n").data
      (headerStr root_dir (before ++ p :: after).length ++ treeSection t ++
        concatStrs (before.map (blockStr fs ".md")) ++ sepDash ++ "\n").data
      ("```" ++ lang p ++ "\n" ++ content ++ "\n```\n\n" ++
        concatStrs (after.map (blockStr fs ".md"))).data)
    (h2 : ∀ x ∈ (lang p).data, x ≠ '\n')
    (h3 : noEarlyOccur ('\n' :: ("```" : String).data) content.data
      ("\n\n" ++ concatStrs (after.map (blockStr fs ".md"))).data) :
    ∃ res out,
      aggregate_code fs cwd root_dir (before ++ p :: after) ofn ".md" =
        some res ∧
      res.output = some out ∧
      extractFenced out p = some content := by
  have hne : before ++ p :: after ≠ [] := by simp
  refine ⟨_, _, aggregate_code_run fs cwd root_dir _ ofn ".md" t hdir hopen
    hne htree, rfl, ?_⟩
  have hout : headerStr root_dir (before ++ p :: after).length ++
      treeSection t ++ bodyStr fs ".md" (before ++ p :: after) =
      (headerStr root_dir (before ++ p :: after).length ++ treeSection t ++
        concatStrs (before.map (blockStr fs ".md")) ++ sepDash ++ "\n") ++
      ("文件路径: " ++ p ++ "\n" ++ sepDash ++ "\n\n") ++
      ("```" ++ lang p ++ "\n" ++ content ++ "\n```\n\n" ++
        concatStrs (after.map (blockStr fs ".md"))) := by
    refine str_ext ?_
    simp [String.data_append, bodyStr, List.map_append, List.map_cons,
      concatStrs_append, concatStrs, data_concatStrs, blockStr, sepBlock,
      contentBlock, hread, List.append_assoc]
  rw [hout]
  exact extractFenced_at p content _ (lang p) _ h1 h2 h3

instance noEarlyOccur.instDecidable (pat a b : List Char) :
    Decidable (noEarlyOccur pat a b) :=
  inferInstanceAs
    (Decidable (∀ t ∈ a.tails, t ≠ [] → ¬ pat.isPrefixOf (t ++ pat ++ b) = true))

set_option maxRecDepth 40000 in
theorem aggregate_code_markdown_roundtrip_witness :
    demoFS.readFile "/r/a.py" = ReadOutcome.ok "print(1)" ∧
    ∃ res out,
      aggregate_code demoFS "/c" "/r" ([] ++ "/r/a.py" :: []) "out/s.md"
          ".md" = some res ∧
      res.output = some out ∧
      extractFenced out "/r/a.py" = some "print(1)" := by
  have htree : generate_file_tree "/c" "/r" ([] ++ "/r/a.py" :: []) =
      some "r\n└─── 📄 a.py" := by
    simp [generate_file_tree, buildTree, relpath, pathParts, abspath, isAbs,
      pjoin, splitSep, splitOnSep, commonPrefixLen, strJoin, insertParts,
      dictGet, dictSet, basename, renderEntries, renderItems, sortEntries,
      isDirEntry, icon]
  exact ⟨by decide,
    aggregate_code_markdown_roundtrip demoFS "/c" "/r" [] []
      "/r/a.py" "out/s.md" "print(1)" "r\n└─── 📄 a.py"
      (by decide) (by decide) htree (by decide)
      (by decide) (by decide) (by decide)⟩

end CodeAgg
